import Mathlib

/-!
Verification development for the `whisper-streaming` speech-to-text pipeline
(server `main.py` / `transcriber.py` / `utils.py`, client `main.py`).

Python strings are modelled as `List Char`, float samples and seconds as `ℚ`,
NumPy arrays as `List ℚ`.  The abstract recognizer backend is a function
parameter.  Definitions are kept executable (structural recursion, fuel where
the source loop advances by a non-constant step) so concrete runs evaluate by
`decide`/`rfl`.
-/

namespace WhisperStreaming

/-- A word, i.e. a maximal whitespace-free run of characters. -/
abbrev Word := List Char

/-- Helper for `fields`: groups of non-whitespace characters produced by a
right fold; a whitespace character closes the current group.  This is the
standard functional rendering of scanning a string into whitespace-separated
runs. -/
def wsGroups (s : List Char) : List Word :=
  s.foldr
    (fun c acc =>
      if c.isWhitespace then [] :: acc
      else
        match acc with
        | [] => [[c]]
        | w :: ws => (c :: w) :: ws)
    [[]]

/-- Embedding of Python `str.split()` (no separator): the maximal non-empty
runs of non-whitespace characters, in order.  (`Char.isWhitespace` stands for
Python's whitespace class.) -/
def fields (s : List Char) : List Word :=
  (wsGroups s).filter (fun w => !w.isEmpty)

/-- Embedding of Python `" ".join(ws)`. -/
def joinWords : List Word → List Char
  | [] => []
  | [w] => w
  | w :: x :: xs => w ++ ' ' :: joinWords (x :: xs)

/-- Fuelled core of `countReps`; the fuel only bounds the number of loop
iterations (each iteration advances the index by `plen ≥ 1`). -/
def countRepsAux (ws phrase : List Word) (plen : Nat) : Nat → Nat → Nat
  | 0, _ => 0
  | fuel + 1, i =>
    if 0 < plen ∧ i + plen ≤ ws.length then
      if (ws.drop i).take plen = phrase then countRepsAux ws phrase plen fuel (i + plen) + 1
      else 0
    else 0

/-- Embedding of the `while` loop of `dedup_repeated_phrases`
(`server/utils.py` lines 17-24): starting at index `i`, the number of
consecutive occurrences of `phrase` (of length `plen`) in `ws`. -/
def countReps (ws phrase : List Word) (plen i : Nat) : Nat :=
  countRepsAux ws phrase plen (ws.length + 1) i

/-- The phrase `words[start:start+plen]`. -/
def phraseAt (ws : List Word) (start plen : Nat) : List Word :=
  (ws.drop start).take plen

/-- One candidate of the scan: `some (start + plen)` when the phrase at
`(start, plen)` repeats more than `m` times (the truncation point
`words[:start+phrase_len]`), else `none`. -/
def cutAt (ws : List Word) (m start plen : Nat) : Option Nat :=
  if m < countReps ws (phraseAt ws start plen) plen start then some (start + plen)
  else none

/-- The phrase lengths tried at `start`:
Python `range(1, min(4, (len(words) - start) // 2) + 1)`. -/
def lensAt (ws : List Word) (start : Nat) : List Nat :=
  (List.range (min 4 ((ws.length - start) / 2))).map (· + 1)

/-- The scan of `dedup_repeated_phrases` (`server/utils.py` lines 14-26):
the first `(start, plen)` in lexicographic scan order whose phrase repeats
more than `m` times, returned as the cut point `start + plen`. -/
def findCut (ws : List Word) (m : Nat) : Option Nat :=
  (List.range ws.length).findSome? fun start =>
    (lensAt ws start).findSome? fun plen => cutAt ws m start plen

/-- Embedding of `dedup_repeated_phrases(text, max_repeats)`
(`server/utils.py` lines 4-27; `StreamingSession._dedup_text` in
`server/main.py` lines 79-100 is the identical copy). -/
def dedup_repeated_phrases (text : List Char) (max_repeats : Nat) : List Char :=
  let words := fields text
  if words.length ≤ max_repeats then text
  else
    match findCut words max_repeats with
    | some k => joinWords (words.take k)
    | none => text

/-- The scan triggers at `(start, plen)`: the phrase of length `plen`
starting at `start` repeats more than `m` times. -/
def hit (ws : List Word) (m s p : Nat) : Prop :=
  m < countReps ws (phraseAt ws s p) p s

/-- The fuel of `countRepsAux` is irrelevant once it exceeds the remaining
word count. -/
lemma countRepsAux_congr (ws phrase : List Word) (plen : Nat) :
    ∀ f1 f2 i : Nat, ws.length - i < f1 → ws.length - i < f2 →
      countRepsAux ws phrase plen f1 i = countRepsAux ws phrase plen f2 i := by
  intro f1
  induction f1 with
  | zero => intro f2 i h1 h2; omega
  | succ f ih =>
      intro f2 i h1 h2
      cases f2 with
      | zero => omega
      | succ g =>
          simp only [countRepsAux]
          by_cases hg : 0 < plen ∧ i + plen ≤ ws.length
          · rw [if_pos hg, if_pos hg]
            by_cases hm : (ws.drop i).take plen = phrase
            · rw [if_pos hm, if_pos hm,
                ih g (i + plen) (by omega) (by omega)]
            · rw [if_neg hm, if_neg hm]
          · rw [if_neg hg, if_neg hg]

/-- One-step unfolding of `countReps`, phrased without fuel: this is the
loop of `server/utils.py` lines 17-24. -/
lemma countReps_unfold (ws phrase : List Word) (plen i : Nat) :
    countReps ws phrase plen i =
      if 0 < plen ∧ i + plen ≤ ws.length then
        if (ws.drop i).take plen = phrase then countReps ws phrase plen (i + plen) + 1
        else 0
      else 0 := by
  rw [countReps, countReps]
  conv_lhs => rw [countRepsAux]
  by_cases hg : 0 < plen ∧ i + plen ≤ ws.length
  · rw [if_pos hg, if_pos hg]
    by_cases hm : (ws.drop i).take plen = phrase
    · rw [if_pos hm, if_pos hm,
        countRepsAux_congr ws phrase plen ws.length (ws.length + 1) (i + plen)
          (by omega) (by omega)]
    · rw [if_neg hm, if_neg hm]
  · rw [if_neg hg, if_neg hg]

/-- A positive repetition count occupies `count * plen` words starting at
`i`, all inside the list. -/
lemma countRepsAux_mul_le (ws phrase : List Word) (plen : Nat) :
    ∀ fuel i : Nat, 0 < countRepsAux ws phrase plen fuel i →
      i + countRepsAux ws phrase plen fuel i * plen ≤ ws.length := by
  intro fuel
  induction fuel with
  | zero => intro i h; simp [countRepsAux] at h
  | succ f ih =>
      intro i h
      simp only [countRepsAux] at h ⊢
      by_cases hg : 0 < plen ∧ i + plen ≤ ws.length
      · rw [if_pos hg] at h ⊢
        by_cases hm : (ws.drop i).take plen = phrase
        · rw [if_pos hm] at h ⊢
          by_cases hc : 0 < countRepsAux ws phrase plen f (i + plen)
          · have hrec := ih (i + plen) hc
            rw [Nat.succ_mul]
            omega
          · have hc0 : countRepsAux ws phrase plen f (i + plen) = 0 := by omega
            rw [hc0]
            have := hg.2
            simpa using this
        · rw [if_neg hm] at h
          omega
      · rw [if_neg hg] at h
        omega

/-- `countReps` version of `countRepsAux_mul_le`. -/
lemma countReps_mul_le (ws phrase : List Word) (plen i : Nat)
    (h : 0 < countReps ws phrase plen i) :
    i + countReps ws phrase plen i * plen ≤ ws.length := by
  rw [countReps] at h ⊢
  exact countRepsAux_mul_le ws phrase plen (ws.length + 1) i h

/-- Slicing inside the first `k` elements agrees with slicing the whole
list. -/
lemma take_slice_eq {α : Type} (l : List α) (k s p : Nat) (h : s + p ≤ k) :
    ((l.take k).drop s).take p = (l.drop s).take p := by
  rw [List.drop_take, List.take_take, Nat.min_eq_left (by omega : p ≤ k - s)]

/-- Counting repetitions inside a front segment never exceeds the count in
the full list (same phrase, same start). -/
lemma countRepsAux_take_le (ws phrase : List Word) (plen k : Nat) :
    ∀ fuel i : Nat,
      countRepsAux (ws.take k) phrase plen fuel i ≤
        countRepsAux ws phrase plen fuel i := by
  intro fuel
  induction fuel with
  | zero => intro i; simp [countRepsAux]
  | succ f ih =>
      intro i
      simp only [countRepsAux]
      by_cases hg : 0 < plen ∧ i + plen ≤ (ws.take k).length
      · have hlen := hg.2
        rw [List.length_take] at hlen
        have hg2 : 0 < plen ∧ i + plen ≤ ws.length := ⟨hg.1, by omega⟩
        rw [if_pos hg, if_pos hg2, take_slice_eq ws k i plen (by omega)]
        by_cases hm : (ws.drop i).take plen = phrase
        · rw [if_pos hm, if_pos hm]
          exact Nat.succ_le_succ (ih (i + plen))
        · rw [if_neg hm, if_neg hm]
      · rw [if_neg hg]
        exact Nat.zero_le _

/-- `countReps` version of `countRepsAux_take_le`. -/
lemma countReps_take_le (ws phrase : List Word) (plen k i : Nat) :
    countReps (ws.take k) phrase plen i ≤ countReps ws phrase plen i := by
  rw [countReps, countReps]
  have hlt : (ws.take k).length ≤ ws.length := by
    rw [List.length_take]; omega
  rw [countRepsAux_congr (ws.take k) phrase plen ((ws.take k).length + 1)
    (ws.length + 1) i (by omega) (by omega)]
  exact countRepsAux_take_le ws phrase plen k (ws.length + 1) i

/-- A hit inside a front segment (entirely contained in it) is a hit in the
full word list. -/
lemma hit_take {ws : List Word} {m k s p : Nat} (hsp : s + p ≤ k)
    (h : hit (ws.take k) m s p) : hit ws m s p := by
  unfold hit phraseAt at h ⊢
  rw [take_slice_eq ws k s p hsp] at h
  exact lt_of_lt_of_le h (countReps_take_le ws ((ws.drop s).take p) p k s)

/-- A hit needs room for `m + 1` phrase copies after `s`. -/
lemma hit_bound {ws : List Word} {m s p : Nat} (h : hit ws m s p) :
    s + (m + 1) * p ≤ ws.length := by
  unfold hit at h
  have hcount : m + 1 ≤ countReps ws (phraseAt ws s p) p s := h
  have hpos : 0 < countReps ws (phraseAt ws s p) p s := by omega
  have hle := countReps_mul_le ws (phraseAt ws s p) p s hpos
  have hmul : (m + 1) * p ≤ countReps ws (phraseAt ws s p) p s * p :=
    Nat.mul_le_mul_right p hcount
  omega

/-- A successful `findSome?` splits its list into a no-hit front, the hit
element, and a rest. -/
lemma findSome?_split {α β : Type} {f : α → Option β} {l : List α} {b : β}
    (h : l.findSome? f = some b) :
    ∃ l1 a l2, l = l1 ++ a :: l2 ∧ f a = some b ∧ ∀ x ∈ l1, f x = none := by
  induction l with
  | nil => simp at h
  | cons a t ih =>
      rw [List.findSome?_cons] at h
      cases hfa : f a with
      | some c =>
          rw [hfa] at h
          exact ⟨[], a, t, rfl, by rw [hfa]; exact h, by simp⟩
      | none =>
          rw [hfa] at h
          obtain ⟨l1, x, l2, hsplit, hx, hnone⟩ := ih h
          refine ⟨a :: l1, x, l2, by rw [hsplit]; rfl, hx, ?_⟩
          intro y hy
          rcases List.mem_cons.mp hy with rfl | hy2
          · exact hfa
          · exact hnone y hy2

/-- `findSome?` over a mapped list. -/
lemma findSome?_map' {α β γ : Type} (g : α → β) (f : β → Option γ) :
    ∀ l : List α, (l.map g).findSome? f = l.findSome? fun a => f (g a) := by
  intro l
  induction l with
  | nil => rfl
  | cons a t ih =>
      rw [List.map_cons, List.findSome?_cons, List.findSome?_cons]
      cases f (g a) with
      | none => exact ih
      | some c => rfl

/-- Decomposing `List.range n` around a distinguished element. -/
lemma range_split {n : Nat} {l1 l2 : List Nat} {a : Nat}
    (h : List.range n = l1 ++ a :: l2) :
    a = l1.length ∧ l1 = List.range l1.length ∧ a < n := by
  have hlen : n = l1.length + 1 + l2.length := by
    have hc := congrArg List.length h
    simp only [List.length_range, List.length_append, List.length_cons] at hc
    omega
  have h1 : (List.range n).take (l1.length + 1) = List.range (l1.length + 1) := by
    rw [List.take_range]
    congr 1
    exact Nat.min_eq_left (by omega)
  have h2 : (l1 ++ a :: l2).take (l1.length + 1) = l1 ++ [a] := by
    rw [List.take_append]
    rfl
  have h3 : List.range (l1.length + 1) = l1 ++ [a] := by rw [← h1, h, h2]
  rw [List.range_succ] at h3
  obtain ⟨h5, h6⟩ := List.append_inj h3 (by simp)
  injection h6 with h7 _
  exact ⟨h7.symm, h5.symm, by omega⟩

/-- Membership in the tried phrase lengths. -/
lemma mem_lensAt {ws : List Word} {s p : Nat} :
    p ∈ lensAt ws s ↔ 1 ≤ p ∧ p ≤ min 4 ((ws.length - s) / 2) := by
  rw [lensAt]
  constructor
  · intro h
    obtain ⟨j, hj, hp⟩ := List.mem_map.mp h
    have := List.mem_range.mp hj
    omega
  · intro hp
    exact List.mem_map.mpr ⟨p - 1, List.mem_range.mpr (by omega), by omega⟩

/-- Structure of a successful scan: `findCut ws m = some k` yields the
lexicographically first `(s, p)` with a hit, and `k = s + p`. -/
lemma findCut_some {ws : List Word} {m k : Nat} (h : findCut ws m = some k) :
    ∃ s p, s < ws.length ∧ 1 ≤ p ∧ p ≤ min 4 ((ws.length - s) / 2) ∧
      hit ws m s p ∧ k = s + p ∧
      (∀ s' p', s' < s → 1 ≤ p' → p' ≤ min 4 ((ws.length - s') / 2) →
        ¬hit ws m s' p') ∧
      (∀ p', 1 ≤ p' → p' < p → ¬hit ws m s p') := by
  rw [findCut] at h
  obtain ⟨l1, s, l2, hsplit, hsome, hnone1⟩ := findSome?_split h
  obtain ⟨hsl, hl1, hsn⟩ := range_split hsplit
  rw [lensAt, findSome?_map'] at hsome
  obtain ⟨l1i, j, l2i, hspliti, hsomei, hnonei⟩ := findSome?_split hsome
  obtain ⟨hjl, hl1i, hjn⟩ := range_split hspliti
  have hhit : hit ws m s (j + 1) ∧ k = s + (j + 1) := by
    rw [cutAt] at hsomei
    by_cases hH : m < countReps ws (phraseAt ws s (j + 1)) (j + 1) s
    · rw [if_pos hH] at hsomei
      exact ⟨hH, (Option.some.inj hsomei).symm⟩
    · rw [if_neg hH] at hsomei
      exact absurd hsomei (by simp)
  refine ⟨s, j + 1, hsn, by omega, by omega, hhit.1, hhit.2, ?_, ?_⟩
  · intro s' p' hs' hp'1 hp'b hhit'
    have hs'mem : s' ∈ l1 := by
      rw [hl1]
      exact List.mem_range.mpr (by omega)
    have hinner := hnone1 s' hs'mem
    rw [lensAt, findSome?_map', List.findSome?_eq_none_iff] at hinner
    have hcut := hinner (p' - 1) (List.mem_range.mpr (by omega))
    unfold hit at hhit'
    rw [show p' - 1 + 1 = p' from by omega, cutAt, if_pos hhit'] at hcut
    exact absurd hcut (by simp)
  · intro p' hp'1 hp'lt hhit'
    have hj'mem : p' - 1 ∈ l1i := by
      rw [hl1i]
      exact List.mem_range.mpr (by omega)
    have hcut := hnonei (p' - 1) hj'mem
    unfold hit at hhit'
    rw [show p' - 1 + 1 = p' from by omega, cutAt, if_pos hhit'] at hcut
    exact absurd hcut (by simp)

/-- If no valid `(s, p)` hits, the scan returns `none`. -/
lemma findCut_none_of (ws : List Word) (m : Nat)
    (h : ∀ s, s < ws.length → ∀ p, 1 ≤ p → p ≤ min 4 ((ws.length - s) / 2) →
      ¬hit ws m s p) : findCut ws m = none := by
  rw [findCut, List.findSome?_eq_none_iff]
  intro s hs
  rw [lensAt, findSome?_map', List.findSome?_eq_none_iff]
  intro j hj
  have hno := h s (List.mem_range.mp hs) (j + 1) (by omega)
    (by have := List.mem_range.mp hj; omega)
  unfold hit at hno
  rw [cutAt, if_neg hno]

/-- Unfolding `wsGroups` over one character. -/
lemma wsGroups_cons (c : Char) (cs : List Char) :
    wsGroups (c :: cs) =
      if c.isWhitespace then [] :: wsGroups cs
      else
        match wsGroups cs with
        | [] => [[c]]
        | w :: ws => (c :: w) :: ws := rfl

/-- `wsGroups` never returns the empty list of groups. -/
lemma wsGroups_ne_nil (s : List Char) : wsGroups s ≠ [] := by
  induction s with
  | nil => simp [wsGroups]
  | cons c cs ih =>
      rw [wsGroups_cons]
      by_cases hc : c.isWhitespace
      · simp [hc]
      · simp only [hc, if_false]
        cases h : wsGroups cs <;> simp

/-- Every character inside any group is non-whitespace. -/
lemma wsGroups_chars (s : List Char) :
    ∀ w ∈ wsGroups s, ∀ c ∈ w, c.isWhitespace = false := by
  induction s with
  | nil => intro w hw c hc; simp [wsGroups] at hw; subst hw; simp at hc
  | cons a cs ih =>
      intro w hw c hc
      rw [wsGroups_cons] at hw
      by_cases ha : a.isWhitespace
      · rw [if_pos ha] at hw
        rcases List.mem_cons.mp hw with h | h
        · subst h; simp at hc
        · exact ih w h c hc
      · rw [if_neg ha] at hw
        cases hgroups : wsGroups cs with
        | nil => exact absurd hgroups (wsGroups_ne_nil cs)
        | cons g gs =>
            rw [hgroups] at hw
            rcases List.mem_cons.mp hw with h | h
            · subst h
              rcases List.mem_cons.mp hc with h2 | h2
              · subst h2; exact Bool.not_eq_true _ ▸ (by simpa using ha)
              · exact ih g (hgroups ▸ List.mem_cons_self g gs) c h2
            · exact ih w (hgroups ▸ List.mem_cons_of_mem g h) c hc

/-- A list whose `isEmpty` is `false` is not `[]`. -/
lemma ne_nil_of_isEmpty_false {α : Type} {l : List α}
    (h : l.isEmpty = false) : l ≠ [] := by
  cases l with
  | nil => simp at h
  | cons a t => exact List.cons_ne_nil a t

/-- The words of any string are non-empty and whitespace-free. -/
lemma fields_chars (s : List Char) :
    ∀ w ∈ fields s, w ≠ [] ∧ ∀ c ∈ w, c.isWhitespace = false := by
  intro w hw
  obtain ⟨hmem, hkeep⟩ := List.mem_filter.mp hw
  refine ⟨?_, wsGroups_chars s w hmem⟩
  apply ne_nil_of_isEmpty_false
  cases h : w.isEmpty
  · rfl
  · rw [h] at hkeep; simp at hkeep

/-- Prepending a whitespace-free run to a string prepends it to the first
group. -/
lemma wsGroups_append_run (w s : List Char)
    (hw : ∀ c ∈ w, c.isWhitespace = false) :
    ∃ g gs, wsGroups s = g :: gs ∧ wsGroups (w ++ s) = (w ++ g) :: gs := by
  induction w with
  | nil =>
      cases h : wsGroups s with
      | nil => exact absurd h (wsGroups_ne_nil s)
      | cons g gs => exact ⟨g, gs, rfl, by simpa using h⟩
  | cons c w' ih =>
      obtain ⟨g, gs, hgs, hrun⟩ := ih fun d hd => hw d (List.mem_cons_of_mem c hd)
      have hc : c.isWhitespace = false := hw c (List.mem_cons_self c w')
      refine ⟨g, gs, hgs, ?_⟩
      rw [List.cons_append, wsGroups_cons, hc]
      simp only [Bool.false_eq_true, if_false]
      rw [hrun]
      rfl

/-- Prepending a whitespace character inserts an empty group. -/
lemma wsGroups_space (s : List Char) : wsGroups (' ' :: s) = [] :: wsGroups s := by
  rw [wsGroups_cons]
  simp

/-- `fields` is a left inverse of `joinWords` on lists of non-empty,
whitespace-free words — i.e. splitting a single-space join recovers the
words. -/
lemma fields_joinWords :
    ∀ ws : List Word,
      (∀ w ∈ ws, w ≠ [] ∧ ∀ c ∈ w, c.isWhitespace = false) →
      fields (joinWords ws) = ws := by
  intro ws
  induction ws with
  | nil => intro _; rfl
  | cons w rest ih =>
      intro hall
      obtain ⟨hwne, hwchars⟩ := hall w (List.mem_cons_self w rest)
      have hkeep : (!w.isEmpty) = true := by
        cases w with
        | nil => exact absurd rfl hwne
        | cons a t => rfl
      cases rest with
      | nil =>
          obtain ⟨g, gs, hgs, hrun⟩ := wsGroups_append_run w [] hwchars
          have hgs2 : ([[]] : List Word) = g :: gs := hgs
          injection hgs2 with h1 h2
          subst h1
          subst h2
          show fields (joinWords [w]) = [w]
          have hj : joinWords [w] = w ++ [] := (List.append_nil w).symm
          rw [hj, fields, hrun, List.append_nil, List.filter_cons, if_pos hkeep]
          rfl
      | cons x xs =>
          have hrest : ∀ u ∈ x :: xs, u ≠ [] ∧ ∀ c ∈ u, c.isWhitespace = false :=
            fun u hu => hall u (List.mem_cons_of_mem w hu)
          have hjoin : joinWords (w :: x :: xs) = w ++ ' ' :: joinWords (x :: xs) := rfl
          obtain ⟨g, gs, hgs, hrun⟩ :=
            wsGroups_append_run w (' ' :: joinWords (x :: xs)) hwchars
          rw [wsGroups_space (joinWords (x :: xs))] at hgs
          injection hgs with h1 h2
          subst h1
          subst h2
          rw [hjoin, fields, hrun, List.append_nil, List.filter_cons, if_pos hkeep]
          have hfr := ih hrest
          rw [fields] at hfr
          rw [hfr]

/-- Embedding of `Segment` (`server/backends/base.py`).  The source field
`end` is a Lean keyword and is rendered `endTime`. -/
structure Segment where
  start : ℚ
  endTime : ℚ
  text : List Char
deriving DecidableEq, Repr

/-- Embedding of `TranscriptResult` (`server/backends/base.py`). -/
structure TranscriptResult where
  text : List Char
  segments : List Segment
  language : List Char
  processing_time_ms : ℚ
deriving DecidableEq, Repr

/-- The abstract recognizer: `WhisperBackend.transcribe(audio, sample_rate,
initial_prompt)`. -/
abbrev Backend := List ℚ → Nat → Option (List Char) → TranscriptResult

/-- The three strategies registered in `create_app` (`server/main.py`
lines 196-200); the connection handler rejects every other name. -/
inductive StrategyName
  | prompt
  | context
  | hybrid
deriving DecidableEq, Repr

/-- The test `strategy_name in ("context", "hybrid")` of `server/main.py`. -/
def usesContext : StrategyName → Bool
  | .context => true
  | .hybrid => true
  | .prompt => false

/-- The segment post-processing shared by `ContextStrategy.transcribe`,
`HybridStrategy.transcribe` and `StreamingSession.get_final`: keep segments
with `end > d`, shift `start`/`end` by `-d`. -/
def trimSegments (d : ℚ) (segs : List Segment) : List Segment :=
  (segs.filter fun sg => d < sg.endTime).map fun sg =>
    ⟨sg.start - d, sg.endTime - d, sg.text⟩

/-- Embedding of `PromptStrategy.transcribe` (`server/transcriber.py`
lines 21-35). -/
def prompt_strategy_transcribe (b : Backend) (audio : List ℚ) (sample_rate : Nat)
    (previous_transcript : Option (List Char)) : TranscriptResult :=
  b audio sample_rate previous_transcript

/-- Embedding of `ContextStrategy.transcribe` (`server/transcriber.py`
lines 38-75).  Note that with `context_audio = none` it still rebuilds the
text from the segments whose `end > 0`. -/
def context_strategy_transcribe (b : Backend) (audio : List ℚ) (sample_rate : Nat)
    (context_audio : Option (List ℚ)) : TranscriptResult :=
  let combined := match context_audio with
    | some ctx => ctx ++ audio
    | none => audio
  let context_duration : ℚ := match context_audio with
    | some ctx => (ctx.length : ℚ) / (sample_rate : ℚ)
    | none => 0
  let result := b combined sample_rate none
  let new_segments := trimSegments context_duration result.segments
  ⟨joinWords (new_segments.map fun sg => sg.text), new_segments,
   result.language, result.processing_time_ms⟩

/-- Embedding of `HybridStrategy.transcribe` (`server/transcriber.py`
lines 78-120). -/
def hybrid_strategy_transcribe (b : Backend) (audio : List ℚ) (sample_rate : Nat)
    (context_audio : Option (List ℚ)) (previous_transcript : Option (List Char)) :
    TranscriptResult :=
  let combined := match context_audio with
    | some ctx => ctx ++ audio
    | none => audio
  let context_duration : ℚ := match context_audio with
    | some ctx => (ctx.length : ℚ) / (sample_rate : ℚ)
    | none => 0
  let result := b combined sample_rate previous_transcript
  let new_segments := trimSegments context_duration result.segments
  ⟨joinWords (new_segments.map fun sg => sg.text), new_segments,
   result.language, result.processing_time_ms⟩

/-- Per-connection state of `StreamingSession` (`server/main.py` lines 23-34).
The source field `partial_max_ms` is rendered `interim_max_ms`. -/
structure StreamingSession where
  strategy_name : StrategyName
  sample_rate : Nat := 16000
  audio_buffer : List (List ℚ) := []
  previous_transcript : List Char := []
  context_audio : Option (List ℚ) := none
  context_overlap_ms : ℚ := 1000
  interim_max_ms : ℚ := 3000
deriving DecidableEq, Repr

/-- `StreamingSession.add_audio`. -/
def add_audio (s : StreamingSession) (audio : List ℚ) : StreamingSession :=
  { s with audio_buffer := s.audio_buffer ++ [audio] }

/-- `StreamingSession.get_buffer_duration_ms`. -/
def get_buffer_duration_ms (s : StreamingSession) : ℚ :=
  if s.audio_buffer = [] then 0
  else (((s.audio_buffer.map List.length).sum : ℚ) / (s.sample_rate : ℚ)) * 1000

/-- `utils.ms_to_samples` / the inline `int(self.sample_rate * max_ms / 1000)`
of `server/main.py`; Python `int()` truncation on the non-negative values in
use equals the floor. -/
def ms_to_samples (ms : ℚ) (sample_rate : Nat) : Nat :=
  (⌊(sample_rate : ℚ) * ms / 1000⌋).toNat

/-- Python slice `a[-k:]` (for `k = 0` it is the whole list). -/
def pySliceLast {α : Type} (a : List α) (k : Nat) : List α :=
  if k = 0 then a else a.drop (a.length - k)

/-- The backwards chunk-collecting loop of `StreamingSession._get_tail_audio`
(`server/main.py` lines 65-73), applied to the reversed buffer: append chunks
until the accumulated length reaches the requested sample count. -/
def collectRev (chunks : List (List ℚ)) (maxS : Nat) : List (List ℚ) :=
  match chunks with
  | [] => []
  | c :: rest => if maxS ≤ c.length then [c] else c :: collectRev rest (maxS - c.length)

/-- Embedding of `StreamingSession._get_tail_audio` (`server/main.py`
lines 62-77). -/
def get_tail_audio (s : StreamingSession) (max_ms : ℚ) : List ℚ :=
  let max_samples := ms_to_samples max_ms s.sample_rate
  let chunks := (collectRev s.audio_buffer.reverse max_samples).reverse
  let audio := chunks.flatten
  if max_samples < audio.length then pySliceLast audio max_samples else audio

/-- `StreamingSession._get_audio_for_transcription`. -/
def get_audio_for_transcription (s : StreamingSession) : List ℚ :=
  let audio := s.audio_buffer.flatten
  match s.context_audio with
  | some ctx => if usesContext s.strategy_name then ctx ++ audio else audio
  | none => audio

/-- The `kwargs` built by `get_partial`/`get_final`: `previous_transcript` is
passed iff the strategy is `prompt` or `hybrid` and it is non-empty
(`server/main.py` lines 110-112 and 131-133). -/
def prompt_kwarg (s : StreamingSession) : Option (List Char) :=
  if (s.strategy_name = .prompt ∨ s.strategy_name = .hybrid) ∧
      s.previous_transcript ≠ [] then some s.previous_transcript
  else none

/-- `self.strategy.transcribe(audio, self.sample_rate, **kwargs)`: the only
kwarg ever passed by the session is `previous_transcript`, so the
context/hybrid strategies run with `context_audio = None`. -/
def strategy_transcribe (b : Backend) (name : StrategyName) (audio : List ℚ)
    (sample_rate : Nat) (prev : Option (List Char)) : TranscriptResult :=
  match name with
  | .prompt => prompt_strategy_transcribe b audio sample_rate prev
  | .context => context_strategy_transcribe b audio sample_rate none
  | .hybrid => hybrid_strategy_transcribe b audio sample_rate none prev

/-- The reply dict of `get_partial` (wire type string: "partial"). -/
structure InterimResult where
  text : List Char
  processing_time_ms : ℚ
deriving DecidableEq, Repr

/-- The reply dict of `get_final` (wire type string: "final"). -/
structure FinalResult where
  text : List Char
  segments : List Segment
  language : List Char
  processing_time_ms : ℚ
deriving DecidableEq, Repr

/-- Embedding of `StreamingSession.get_partial` (`server/main.py`
lines 102-122); the method reads but never assigns session state, so the
returned session is the input one. -/
def get_interim (b : Backend) (s : StreamingSession) :
    InterimResult × StreamingSession :=
  if s.audio_buffer = [] then (⟨[], 0⟩, s)
  else
    let audio := get_tail_audio s s.interim_max_ms
    let result := strategy_transcribe b s.strategy_name audio s.sample_rate (prompt_kwarg s)
    (⟨dedup_repeated_phrases result.text 3, result.processing_time_ms⟩, s)

/-- Embedding of `StreamingSession.get_final` (`server/main.py`
lines 124-165). -/
def get_final (b : Backend) (s : StreamingSession) :
    FinalResult × StreamingSession :=
  if s.audio_buffer = [] then (⟨[], [], "unknown".toList, 0⟩, s)
  else
    let audio := get_audio_for_transcription s
    let result := strategy_transcribe b s.strategy_name audio s.sample_rate (prompt_kwarg s)
    let trimmed : List Segment × List Char :=
      match s.context_audio with
      | some ctx =>
          if usesContext s.strategy_name then
            let d := (ctx.length : ℚ) / (s.sample_rate : ℚ)
            let segs := trimSegments d result.segments
            (segs, joinWords (segs.map fun sg => sg.text))
          else (result.segments, result.text)
      | none => (result.segments, result.text)
    let raw := s.audio_buffer.flatten
    let overlap_samples := ms_to_samples s.context_overlap_ms s.sample_rate
    let ctx2 := if overlap_samples < raw.length then pySliceLast raw overlap_samples else raw
    (⟨trimmed.2, trimmed.1, result.language, result.processing_time_ms⟩,
     { s with context_audio := some ctx2,
              previous_transcript := trimmed.2,
              audio_buffer := [] })

/-- Inbound messages of the streaming handler (`create_app.handler`,
`server/main.py` lines 228-254). -/
inductive ClientMsg
  | audio_frame (samples : List ℚ)
  | vad_end
  | unknownMsg

/-- Outbound messages of the streaming handler. -/
inductive ServerMsg
  | interimMsg (r : InterimResult)
  | finalMsg (r : FinalResult)
deriving DecidableEq, Repr

/-- One iteration of the message loop of `create_app.handler`
(`server/main.py` lines 228-254).  `due` stands for the real-time test
`elapsed_ms ≥ partial_interval_ms`. -/
def handler_step (b : Backend) (due : Bool) (msg : ClientMsg)
    (s : StreamingSession) : StreamingSession × List ServerMsg :=
  match msg with
  | .audio_frame a =>
      let s1 := add_audio s a
      if due ∧ 0 < get_buffer_duration_ms s1 then
        (s1, [.interimMsg (get_interim b s1).1])
      else (s1, [])
  | .vad_end =>
      if 0 < get_buffer_duration_ms s then
        let fr := get_final b s
        (fr.2, [.finalMsg fr.1])
      else (s, [])
  | .unknownMsg => (s, [])

/-- The finalization outcome of `BatchClient.run` (`client/main.py`
lines 376-433): discard as noise, transmit, or drop because the transport is
down.  In every branch the speech state is reset. -/
inductive FinalizeAction
  | discard
  | send
  | offlineDrop
deriving DecidableEq, Repr

/-- Embedding of the decision at `client/main.py` lines 381-431: an utterance
is discarded iff `duration_ms < min_speech_ms or avg_energy < min_energy`;
otherwise it is sent when connected. -/
def finalize_decision (min_speech_ms min_energy duration_ms avg_energy : ℚ)
    (connected : Bool) : FinalizeAction :=
  if duration_ms < min_speech_ms ∨ avg_energy < min_energy then .discard
  else if connected then .send
  else .offlineDrop

/-- Outcome of routing a connection path. -/
inductive RouteOutcome
  | batchMode
  | streamingMode (name : StrategyName)
  | closed (code : Nat)
deriving DecidableEq, Repr

/-- Modelled from the spec: the endpoint routing of the server variant that
serves both `/ws/transcribe` (batch) and `/ws/transcribe/{strategy}`
(streaming), spec §6.1.  The batch route is missing from `src/` (the
`server/main.py` present there closes it with code 1008), while
`tests/test_integration.py` imports `server.main.handle_transcribe` and the
in-repo `BatchClient` connects to `/ws/transcribe`.  Unknown strategies and
other paths close with code 1008. -/
def route_ws_path (parts : List String) : RouteOutcome :=
  match parts with
  | ["ws", "transcribe"] => .batchMode
  | ["ws", "transcribe", name] =>
      if name = "prompt" then .streamingMode .prompt
      else if name = "context" then .streamingMode .context
      else if name = "hybrid" then .streamingMode .hybrid
      else .closed 1008
  | _ => .closed 1008

/-- Replies of the batch endpoint: a `result` (the batch alias of `final`) or
a `noise` rejection. -/
inductive BatchReply
  | result (r : FinalResult)
  | noise (sample : List Char)
deriving DecidableEq, Repr

/-- Inbound messages of the batch connection. -/
inductive BatchClientMsg
  | transcribe (audio : List ℚ) (sample_rate : Nat)
  | unknownBatchMsg

/-- Modelled from the spec: `handle_transcribe`, the batch finalization
handler missing from `src/` (it is imported by `tests/test_integration.py`).
Per spec §4.4 a `transcribe` payload is used as a finalization input
immediately and answered with exactly one reply: a `result` when the
hallucination filter accepts the text, else a `noise` message.  The
`clean_hallucination` predicate (spec §4.6) is likewise missing from `src/`
and is abstracted as `accept`.  `previous_transcript` is updated only when
accepted and non-empty (spec §4.4 final path, steps 2-3). -/
def handle_transcribe (accept : List Char → Bool) (b : Backend)
    (audio : List ℚ) (sample_rate : Nat) (previous_transcript : List Char) :
    BatchReply × List Char :=
  let r := b audio sample_rate
    (if previous_transcript ≠ [] then some previous_transcript else none)
  if accept r.text then
    (.result ⟨r.text, r.segments, r.language, r.processing_time_ms⟩,
     if r.text ≠ [] then r.text else previous_transcript)
  else (.noise r.text, previous_transcript)

/-- Modelled from the spec: one iteration of the batch connection's message
loop (spec §4.4, §6.2): each `transcribe` is answered by the single reply of
`handle_transcribe`; other messages are skipped. -/
def batch_handler_step (accept : List Char → Bool) (b : Backend)
    (msg : BatchClientMsg) (previous_transcript : List Char) :
    List Char × List BatchReply :=
  match msg with
  | .transcribe audio sample_rate =>
      let pr := handle_transcribe accept b audio sample_rate previous_transcript
      (pr.2, [pr.1])
  | .unknownBatchMsg => (previous_transcript, [])

/-! ## Concrete instances used by counterexamples and witnesses -/

/-- A backend returning a fixed short transcript. -/
def cexBackend : Backend :=
  fun _ _ _ => ⟨"hi".toList, [⟨0, 1, "hi".toList⟩], "en".toList, 5⟩

/-- A backend returning an empty transcript (e.g. silence). -/
def cexEmptyBackend : Backend := fun _ _ _ => ⟨[], [], "en".toList, 0⟩

/-- A prompt-strategy session with one buffered frame. -/
def cexSession5 : StreamingSession :=
  { strategy_name := .prompt, audio_buffer := [[1]] }

/-- A prompt-strategy session with one buffered frame and a non-empty
`previous_transcript`. -/
def cexSession1 : StreamingSession :=
  { strategy_name := .prompt, audio_buffer := [[1]],
    previous_transcript := "hello".toList }

/-! ## Helper lemmas on the session state machine -/

/-- A strictly positive buffered duration implies a non-empty buffer. -/
lemma duration_pos_ne_nil {s : StreamingSession}
    (h : 0 < get_buffer_duration_ms s) : s.audio_buffer ≠ [] := by
  intro hnil
  rw [get_buffer_duration_ms, if_pos hnil] at h
  exact lt_irrefl 0 h

/-- `get_final` empties the buffer whenever it was non-empty. -/
lemma get_final_clears_buffer (b : Backend) (s : StreamingSession)
    (h : s.audio_buffer ≠ []) : (get_final b s).2.audio_buffer = [] := by
  unfold get_final
  simp [h]

/-- An empty buffer has zero buffered duration. -/
lemma duration_of_nil {s : StreamingSession} (h : s.audio_buffer = []) :
    get_buffer_duration_ms s = 0 := by
  rw [get_buffer_duration_ms, if_pos h]

/-- The `initial_prompt` finally received by the backend in `get_final`:
`prompt` and `hybrid` forward the session's kwarg, `context` drops it
(`ContextStrategy.transcribe` calls the backend without a prompt). -/
def backend_prompt_arg (s : StreamingSession) : Option (List Char) :=
  match s.strategy_name with
  | .prompt => prompt_kwarg s
  | .context => none
  | .hybrid => prompt_kwarg s

/-- Shifting by `0` is the identity on a segment list. -/
lemma map_shift_zero (segs : List Segment) :
    (segs.map fun sg => Segment.mk (sg.start - 0) (sg.endTime - 0) sg.text) = segs := by
  induction segs with
  | nil => rfl
  | cons a l ih => simp [ih]

/-- `trimSegments 0` only filters out segments with `endTime ≤ 0`. -/
lemma trimSegments_zero (segs : List Segment) :
    trimSegments 0 segs = segs.filter fun sg => 0 < sg.endTime := by
  unfold trimSegments
  rw [map_shift_zero]

/-- Trimming at `d > 0` after the vacuous trim at `0` equals trimming at `d`
directly (segments with `endTime ≤ 0` would be dropped either way). -/
lemma trim_after_zero {d : ℚ} (hd : 0 < d) (segs : List Segment) :
    trimSegments d (trimSegments 0 segs) = trimSegments d segs := by
  rw [trimSegments_zero]
  unfold trimSegments
  rw [List.filter_filter]
  congr 1
  apply List.filter_congr
  intro sg _
  by_cases h : d < sg.endTime
  · simp [h, lt_trans hd h]
  · simp [h]

/-- The trimming shift does not change segment texts. -/
lemma trimSegments_map_text (d : ℚ) (segs : List Segment) :
    (trimSegments d segs).map (fun sg => sg.text) =
      (segs.filter fun sg => d < sg.endTime).map fun sg => sg.text := by
  unfold trimSegments
  rw [List.map_map]
  rfl

/-- Characterization of `get_final` for a context-using strategy with stored
context audio: the emitted segments are the backend's segments on
`context ++ buffer`, trimmed at the context duration, and the emitted text is
the single-space join of their texts. -/
lemma get_final_context_eq (b : Backend) (s : StreamingSession) (ctx : List ℚ)
    (hctx : s.context_audio = some ctx) (huse : usesContext s.strategy_name = true)
    (hbuf : s.audio_buffer ≠ [])
    (hd : 0 < (ctx.length : ℚ) / (s.sample_rate : ℚ)) :
    (get_final b s).1.segments =
      trimSegments ((ctx.length : ℚ) / (s.sample_rate : ℚ))
        (b (ctx ++ s.audio_buffer.flatten) s.sample_rate (backend_prompt_arg s)).segments ∧
    (get_final b s).1.text =
      joinWords ((trimSegments ((ctx.length : ℚ) / (s.sample_rate : ℚ))
        (b (ctx ++ s.audio_buffer.flatten) s.sample_rate (backend_prompt_arg s)).segments).map
        fun sg => sg.text) := by
  obtain ⟨name, sr, buf, prev, ctxa, com, imm⟩ := s
  simp only at hctx huse hbuf hd ⊢
  subst hctx
  cases name with
  | prompt => simp [usesContext] at huse
  | context =>
      simp [get_final, get_audio_for_transcription, strategy_transcribe,
        context_strategy_transcribe, backend_prompt_arg, usesContext, hbuf,
        trim_after_zero hd, trimSegments_map_text]
  | hybrid =>
      simp [get_final, get_audio_for_transcription, strategy_transcribe,
        hybrid_strategy_transcribe, backend_prompt_arg, usesContext, hbuf,
        trim_after_zero hd, trimSegments_map_text]

/-- The last `k` elements of a list (all of it when `k ≥ length`). -/
def lastN {α : Type} (l : List α) (k : Nat) : List α :=
  l.drop (l.length - k)

/-- If two decompositions of the same list have right parts of equal length,
the right parts coincide. -/
lemma right_eq_of_append {α : Type} {w1 w2 l1 l2 : List α}
    (h : w1 ++ l1 = w2 ++ l2) (hl : l1.length = l2.length) : l1 = l2 := by
  have hw : w1.length = w2.length := by
    have hlen := congrArg List.length h
    simp only [List.length_append] at hlen
    omega
  exact (List.append_inj h hw).2

/-- The chunks collected by `collectRev` form a front of the walked list. -/
lemma collectRev_is_front :
    ∀ (rev : List (List ℚ)) (maxS : Nat), ∃ t, rev = collectRev rev maxS ++ t := by
  intro rev
  induction rev with
  | nil => intro maxS; exact ⟨[], rfl⟩
  | cons c rest ih =>
      intro maxS
      by_cases h : maxS ≤ c.length
      · exact ⟨rest, by rw [collectRev, if_pos h]; rfl⟩
      · obtain ⟨t, ht⟩ := ih (maxS - c.length)
        refine ⟨t, ?_⟩
        rw [collectRev, if_neg h, List.cons_append, ← ht]

/-- `collectRev` gathers at least `min maxS total` samples. -/
lemma collectRev_flatten_le :
    ∀ (rev : List (List ℚ)) (maxS : Nat),
      min maxS rev.flatten.length ≤ (collectRev rev maxS).flatten.length := by
  intro rev
  induction rev with
  | nil => intro maxS; simp
  | cons c rest ih =>
      intro maxS
      by_cases h : maxS ≤ c.length
      · rw [collectRev, if_pos h]
        simp only [List.flatten_cons, List.length_append, List.flatten_nil,
          List.length_nil]
        omega
      · rw [collectRev, if_neg h]
        have := ih (maxS - c.length)
        simp only [List.flatten_cons, List.length_append] at this ⊢
        omega

/-- Reversing the chunk list does not change the total sample count. -/
lemma flatten_length_reverse (l : List (List ℚ)) :
    l.reverse.flatten.length = l.flatten.length := by
  simp [List.length_flatten, List.map_reverse, List.sum_reverse]

/-- `_get_tail_audio` returns exactly the last `max_samples` samples of the
concatenated buffer (all of it when shorter), provided `max_samples > 0`
(with `max_samples = 0` the Python slice `audio[-0:]` would be the whole
array instead). -/
lemma get_tail_audio_eq (s : StreamingSession) (max_ms : ℚ)
    (hpos : 0 < ms_to_samples max_ms s.sample_rate) :
    get_tail_audio s max_ms =
      lastN s.audio_buffer.flatten (ms_to_samples max_ms s.sample_rate) := by
  set maxS := ms_to_samples max_ms s.sample_rate with hmaxS
  obtain ⟨t, ht⟩ := collectRev_is_front s.audio_buffer.reverse maxS
  set coll := collectRev s.audio_buffer.reverse maxS with hcoll
  have hbuf : s.audio_buffer = t.reverse ++ coll.reverse := by
    have h2 := congrArg List.reverse ht
    rw [List.reverse_reverse, List.reverse_append] at h2
    exact h2
  set audio := coll.reverse.flatten with haudio
  have hflat : s.audio_buffer.flatten = t.reverse.flatten ++ audio := by
    rw [haudio, hbuf, List.flatten_append]
  have hminle : min maxS s.audio_buffer.flatten.length ≤ audio.length := by
    have h1 := collectRev_flatten_le s.audio_buffer.reverse maxS
    rw [← hcoll] at h1
    have h2 := flatten_length_reverse s.audio_buffer
    have h3 := flatten_length_reverse coll
    rw [haudio, h3]
    omega
  have haudle : audio.length ≤ s.audio_buffer.flatten.length := by
    have hl := congrArg List.length hflat
    simp only [List.length_append] at hl
    omega
  show (if maxS < audio.length then pySliceLast audio maxS else audio) =
    lastN s.audio_buffer.flatten maxS
  by_cases hc : maxS < audio.length
  · rw [if_pos hc, pySliceLast, if_neg (Nat.pos_iff_ne_zero.mp hpos), lastN]
    have e1 : (t.reverse.flatten ++ audio.take (audio.length - maxS)) ++
        audio.drop (audio.length - maxS) = s.audio_buffer.flatten := by
      rw [List.append_assoc, List.take_append_drop]
      exact hflat.symm
    have e2 := List.take_append_drop
      (s.audio_buffer.flatten.length - maxS) s.audio_buffer.flatten
    refine right_eq_of_append (e1.trans e2.symm) ?_
    simp only [List.length_drop]
    omega
  · rw [if_neg hc, lastN]
    have e2 := List.take_append_drop
      (s.audio_buffer.flatten.length - maxS) s.audio_buffer.flatten
    refine right_eq_of_append (hflat.symm.trans e2.symm) ?_
    simp only [List.length_drop]
    omega

/-! ## Claim theorems (first batch) -/

/-- C8: on client-side finalization, the utterance is discarded as noise iff
`duration_ms < min_speech_ms` or `avg_energy < min_energy`; both thresholds
are inclusive, so an utterance at exactly both thresholds is sent (when the
transport is connected). -/
theorem finalize_discard_iff (min_speech_ms min_energy duration_ms avg_energy : ℚ)
    (connected : Bool) :
    (finalize_decision min_speech_ms min_energy duration_ms avg_energy connected =
        .discard ↔ (duration_ms < min_speech_ms ∨ avg_energy < min_energy)) ∧
    finalize_decision min_speech_ms min_energy min_speech_ms min_energy true = .send := by
  constructor
  · unfold finalize_decision
    by_cases h : duration_ms < min_speech_ms ∨ avg_energy < min_energy
    · simp [h]
    · simp only [if_neg h]
      cases connected <;> exact iff_of_false (by simp) h
  · unfold finalize_decision
    simp [lt_irrefl]

/-- C6 (code bug): the scan of `dedup_repeated_phrases` tries phrase lengths
up to `min(4, remaining/2)` — not `min(3, remaining/2)` as its own docstring
(and the spec) state — so on four 4-word repetitions it truncates where the
documented algorithm would return the text unchanged; the documented concrete
example still holds. -/
theorem dedup_tries_phrase_length_four :
    dedup_repeated_phrases "a b c d a b c d a b c d a b c d".toList 3 = "a b c d".toList ∧
    dedup_repeated_phrases "the cat the cat the cat the cat the cat".toList 3 =
      "the cat".toList := by
  constructor <;> decide

/-- C5 counterexample: with one buffered frame, the first `vad_end` emits a
final and the second emits no message at all — not an empty `final`. -/
theorem second_vad_end_emits_nothing_cex :
    (handler_step cexBackend false .vad_end
        (handler_step cexBackend false .vad_end cexSession5).1).2 = [] := by
  have hne : cexSession5.audio_buffer ≠ [] := by simp [cexSession5]
  have h0 : (0 : ℚ) < get_buffer_duration_ms cexSession5 := by
    rw [get_buffer_duration_ms, if_neg hne]
    norm_num [cexSession5]
  have h1 : (handler_step cexBackend false .vad_end cexSession5).1 =
      (get_final cexBackend cexSession5).2 := by
    simp only [handler_step, if_pos h0]
  rw [h1]
  have h2 : ¬ (0 : ℚ) < get_buffer_duration_ms (get_final cexBackend cexSession5).2 := by
    rw [duration_of_nil (get_final_clears_buffer cexBackend cexSession5 hne)]
    exact lt_irrefl 0
  simp only [handler_step, if_neg h2]

/-- C5 (amended): after any two back-to-back `vad_end` messages, the second
one sends nothing: the first finalization (or initial emptiness) leaves
`audio_buffer` empty, and `vad_end` with zero buffered duration is a no-op;
`get_final` is not even called on the second message. -/
theorem second_vad_end_emits_nothing (b : Backend) (due : Bool)
    (s : StreamingSession) :
    (handler_step b due .vad_end (handler_step b due .vad_end s).1).2 = [] := by
  by_cases h : 0 < get_buffer_duration_ms s
  · have hne : s.audio_buffer ≠ [] := duration_pos_ne_nil h
    have h1 : (handler_step b due .vad_end s).1 = (get_final b s).2 := by
      rw [handler_step, if_pos h]
    rw [h1, handler_step,
      if_neg (by
        rw [duration_of_nil (get_final_clears_buffer b s hne)]
        exact lt_irrefl 0)]
  · have h1 : (handler_step b due .vad_end s).1 = s := by
      rw [handler_step, if_neg h]
    rw [h1, handler_step, if_neg h]

/-- C1 counterexample: with `previous_transcript = "hello"` and a backend
returning an empty transcript, `get_final` still overwrites
`previous_transcript` (with the empty text), although the resulting
transcript is empty and nothing was "accepted". -/
theorem prev_transcript_overwritten_cex :
    (get_final cexEmptyBackend cexSession1).1.text = [] ∧
    (get_final cexEmptyBackend cexSession1).2.previous_transcript ≠
      cexSession1.previous_transcript := by
  decide

/-- C1 (amended): on every finalization with a non-empty buffer,
`get_final` sets `previous_transcript` to the post-processed final text
unconditionally — even when that text is empty (there is no hallucination
rejection in the streaming final path); with an empty buffer the session is
unchanged. -/
theorem prev_transcript_set_unconditionally (b : Backend) (s : StreamingSession) :
    (s.audio_buffer ≠ [] →
      (get_final b s).2.previous_transcript = (get_final b s).1.text) ∧
    (s.audio_buffer = [] → (get_final b s).2 = s) := by
  constructor <;> intro h <;> unfold get_final <;> simp [h]

/-- Witness for C1's amended theorem at a concrete session. -/
theorem prev_transcript_set_unconditionally_w :
    (get_final cexEmptyBackend cexSession1).2.previous_transcript =
      (get_final cexEmptyBackend cexSession1).1.text :=
  (prev_transcript_set_unconditionally cexEmptyBackend cexSession1).1 (by decide)

/-- Context audio for witness/counterexample runs: 8 samples at rate 16,
i.e. a duration of 0.5 s. -/
def cexCtx : List ℚ := List.replicate 8 0

/-- A context-strategy session with the 0.5 s `cexCtx` stored and 1 s of new
audio buffered (rate 16). -/
def cexCtxSession : StreamingSession :=
  { strategy_name := .context, sample_rate := 16,
    audio_buffer := [List.replicate 16 0], context_audio := some cexCtx }

/-- Backend for the spec's context-trim example: three segments, the first of
which lies entirely inside the 0.5 s context. -/
def cexCtxBackend : Backend :=
  fun _ _ _ => ⟨"old new words".toList,
    [⟨0, 1/2, "old".toList⟩, ⟨1/2, 1, "new".toList⟩, ⟨1, 3/2, "words".toList⟩],
    "en".toList, 50⟩

/-- Backend whose single segment spans the 0.5 s context boundary. -/
def cexBoundaryBackend : Backend :=
  fun _ _ _ => ⟨"x".toList, [⟨1/4, 3/4, "x".toList⟩], "en".toList, 1⟩

/-- C2: for a context-using strategy with non-empty stored context audio (of
duration `d = len(ctx)/sample_rate`), the final result is the backend result
on `context ++ buffer` post-processed by dropping every segment with
`end ≤ d`, shifting the remaining segments by `-d`, and recomputing the text
as the single-space join of the remaining segments' texts. -/
theorem final_context_trim (b : Backend) (s : StreamingSession) (ctx : List ℚ)
    (h1 : s.context_audio = some ctx) (h2 : usesContext s.strategy_name = true)
    (h3 : ctx ≠ []) (h4 : 0 < s.sample_rate) (h5 : s.audio_buffer ≠ []) :
    (get_final b s).1.segments =
      ((b (ctx ++ s.audio_buffer.flatten) s.sample_rate
            (backend_prompt_arg s)).segments.filter
          fun sg => (ctx.length : ℚ) / (s.sample_rate : ℚ) < sg.endTime).map
        (fun sg => Segment.mk (sg.start - (ctx.length : ℚ) / (s.sample_rate : ℚ))
          (sg.endTime - (ctx.length : ℚ) / (s.sample_rate : ℚ)) sg.text) ∧
    (get_final b s).1.text =
      joinWords (((b (ctx ++ s.audio_buffer.flatten) s.sample_rate
            (backend_prompt_arg s)).segments.filter
          fun sg => (ctx.length : ℚ) / (s.sample_rate : ℚ) < sg.endTime).map
        fun sg => sg.text) := by
  have hd : 0 < (ctx.length : ℚ) / (s.sample_rate : ℚ) :=
    div_pos (by exact_mod_cast List.length_pos.mpr h3) (by exact_mod_cast h4)
  obtain ⟨hseg, htext⟩ := get_final_context_eq b s ctx h1 h2 h5 hd
  exact ⟨hseg, by rw [htext, trimSegments_map_text]⟩

/-- Witness for C2 at the spec's example: 0.5 s context, 1 s of new audio,
backend segments `(0, 0.5, old), (0.5, 1, new), (1, 1.5, words)`. -/
theorem final_context_trim_w :
    (get_final cexCtxBackend cexCtxSession).1.text = "new words".toList ∧
    (get_final cexCtxBackend cexCtxSession).1.segments =
      [⟨0, 1/2, "new".toList⟩, ⟨1/2, 1, "words".toList⟩] := by
  obtain ⟨hseg, htext⟩ := final_context_trim cexCtxBackend cexCtxSession cexCtx
    rfl (by decide) (by decide) (by decide) (by decide)
  constructor
  · rw [htext]
    norm_num [cexCtxBackend, cexCtx, cexCtxSession, List.filter_cons, joinWords]
  · rw [hseg]
    norm_num [cexCtxBackend, cexCtx, cexCtxSession, List.filter_cons]

/-- Shared evaluation: the boundary-spanning backend segment comes out of
`get_final` with `start = -1/4`. -/
lemma cex_boundary_segments :
    (get_final cexBoundaryBackend cexCtxSession).1.segments =
      [⟨-(1/4 : ℚ), 1/4, "x".toList⟩] := by
  have hd : 0 < (cexCtx.length : ℚ) / (cexCtxSession.sample_rate : ℚ) := by
    norm_num [cexCtx, cexCtxSession]
  obtain ⟨hseg, -⟩ := get_final_context_eq cexBoundaryBackend cexCtxSession cexCtx
    rfl (by decide) (by decide) hd
  rw [hseg]
  unfold trimSegments
  norm_num [cexBoundaryBackend, cexCtx, cexCtxSession, List.filter_cons]

/-- C4 counterexample: with context duration `1/2`, a backend segment with
`0 ≤ start ≤ end` spanning the boundary (`start = 1/4`, `end = 3/4`) is
emitted with `start = -1/4 < 0`. -/
theorem final_segment_negative_start_cex :
    (get_final cexBoundaryBackend cexCtxSession).1.segments =
      [⟨-(1/4 : ℚ), 1/4, "x".toList⟩] ∧ (-(1/4 : ℚ)) < 0 :=
  ⟨cex_boundary_segments, by norm_num⟩

/-- C4 (amended): for context-using strategies with stored context of
duration `d`, for backend segments with `0 ≤ start ≤ end`, every emitted
segment satisfies `start ≥ -d` and `end > 0`; `start ≥ 0` can fail for a
segment spanning the context boundary. -/
theorem final_segments_lower_bound (b : Backend) (s : StreamingSession) (ctx : List ℚ)
    (h1 : s.context_audio = some ctx) (h2 : usesContext s.strategy_name = true)
    (h3 : ctx ≠ []) (h4 : 0 < s.sample_rate) (h5 : s.audio_buffer ≠ [])
    (h6 : ∀ sg ∈ (b (ctx ++ s.audio_buffer.flatten) s.sample_rate
        (backend_prompt_arg s)).segments, 0 ≤ sg.start ∧ sg.start ≤ sg.endTime) :
    ∀ sg ∈ (get_final b s).1.segments,
      -((ctx.length : ℚ) / (s.sample_rate : ℚ)) ≤ sg.start ∧ 0 < sg.endTime := by
  have hd : 0 < (ctx.length : ℚ) / (s.sample_rate : ℚ) :=
    div_pos (by exact_mod_cast List.length_pos.mpr h3) (by exact_mod_cast h4)
  obtain ⟨hseg, -⟩ := get_final_context_eq b s ctx h1 h2 h5 hd
  rw [hseg]
  intro sg hsg
  unfold trimSegments at hsg
  obtain ⟨sg0, hsg0, hshift⟩ := List.mem_map.mp hsg
  obtain ⟨hmem0, hend0⟩ := List.mem_filter.mp hsg0
  have hend : (ctx.length : ℚ) / (s.sample_rate : ℚ) < sg0.endTime := by
    simpa using hend0
  obtain ⟨hs0, -⟩ := h6 sg0 hmem0
  subst hshift
  constructor
  · simpa using hs0
  · simpa using hend

/-- Witness for C4's amended theorem: the boundary-spanning concrete run. -/
theorem final_segments_lower_bound_w :
    -((cexCtx.length : ℚ) / (cexCtxSession.sample_rate : ℚ)) ≤
        (Segment.mk (-(1/4 : ℚ)) (1/4) "x".toList).start ∧
      (0 : ℚ) < (Segment.mk (-(1/4 : ℚ)) (1/4) "x".toList).endTime :=
  final_segments_lower_bound cexBoundaryBackend cexCtxSession cexCtx
    rfl (by decide) (by decide) (by decide) (by decide)
    (by
      intro sg hsg
      simp only [cexBoundaryBackend, List.mem_singleton] at hsg
      subst hsg
      constructor <;> norm_num)
    (Segment.mk (-(1/4 : ℚ)) (1/4) "x".toList)
    (by rw [cex_boundary_segments]; exact List.mem_singleton_self _)

/-- C9: the partial path leaves the whole session state — in particular
`previous_transcript`, `context_audio` and `audio_buffer` — unchanged, and
(whenever the `partial_max_ms` window is a positive number of samples) the
audio it hands to the strategy, `get_tail_audio`, is exactly the trailing
window of the concatenated buffer; on a non-empty buffer the emitted text is
the deduplicated transcription of that tail. -/
theorem get_interim_frame (b : Backend) (s : StreamingSession) :
    (get_interim b s).2 = s ∧
    (0 < ms_to_samples s.interim_max_ms s.sample_rate →
      get_tail_audio s s.interim_max_ms =
        lastN s.audio_buffer.flatten (ms_to_samples s.interim_max_ms s.sample_rate)) ∧
    (s.audio_buffer ≠ [] →
      (get_interim b s).1.text =
        dedup_repeated_phrases
          (strategy_transcribe b s.strategy_name (get_tail_audio s s.interim_max_ms)
            s.sample_rate (prompt_kwarg s)).text 3) := by
  refine ⟨?_, fun hpos => get_tail_audio_eq s s.interim_max_ms hpos, fun hbuf => ?_⟩
  · by_cases h : s.audio_buffer = [] <;> simp [get_interim, h]
  · simp [get_interim, hbuf]

/-- Witness for C9 at a concrete session (16 kHz, 3000 ms window). -/
theorem get_interim_frame_w :
    (get_interim cexBackend cexSession5).2 = cexSession5 ∧
    get_tail_audio cexSession5 cexSession5.interim_max_ms =
      lastN cexSession5.audio_buffer.flatten
        (ms_to_samples cexSession5.interim_max_ms cexSession5.sample_rate) ∧
    (get_interim cexBackend cexSession5).1.text =
      dedup_repeated_phrases
        (strategy_transcribe cexBackend cexSession5.strategy_name
          (get_tail_audio cexSession5 cexSession5.interim_max_ms)
          cexSession5.sample_rate (prompt_kwarg cexSession5)).text 3 :=
  ⟨(get_interim_frame cexBackend cexSession5).1,
   (get_interim_frame cexBackend cexSession5).2.1 (by
      rw [ms_to_samples]
      norm_num [cexSession5]),
   (get_interim_frame cexBackend cexSession5).2.2 (by decide)⟩

/-- C7: for every string `x` and every `max_repeats`, the word sequence of
`dedup_repeated_phrases x max_repeats` (split on whitespace) is a prefix of
the word sequence of `x`: some tail `t` extends it back to `fields x`. -/
theorem dedup_words_front (x : List Char) (m : Nat) :
    ∃ t, fields x = fields (dedup_repeated_phrases x m) ++ t := by
  by_cases hlen : (fields x).length ≤ m
  · have hdedup : dedup_repeated_phrases x m = x := by
      simp [dedup_repeated_phrases, hlen]
    exact ⟨[], by rw [hdedup, List.append_nil]⟩
  · cases hcut : findCut (fields x) m with
    | none =>
        have hdedup : dedup_repeated_phrases x m = x := by
          simp [dedup_repeated_phrases, hlen, hcut]
        exact ⟨[], by rw [hdedup, List.append_nil]⟩
    | some k =>
        have hdedup : dedup_repeated_phrases x m = joinWords ((fields x).take k) := by
          simp [dedup_repeated_phrases, hlen, hcut]
        have hf : fields (joinWords ((fields x).take k)) = (fields x).take k :=
          fields_joinWords _ fun w hw => fields_chars x w (List.take_subset k (fields x) hw)
        exact ⟨(fields x).drop k, by rw [hdedup, hf, List.take_append_drop]⟩

/-- C10 counterexample: with `max_repeats = 1`, deduplicating
`"a b b a b b"` yields `"a b b"`, and a second pass shortens it further to
`"a b"` — so the function is not idempotent for every `max_repeats`. -/
theorem dedup_not_idempotent_cex :
    dedup_repeated_phrases (dedup_repeated_phrases "a b b a b b".toList 1) 1 ≠
      dedup_repeated_phrases "a b b a b b".toList 1 := by
  decide

/-- C10 (amended): `dedup_repeated_phrases` is idempotent for every
`max_repeats ≥ 3` (in particular at the default 3 used by the session): a
second pass cannnot find a new repetition because the cut keeps only the
text before the first trigger plus one phrase instance (at most 4 words),
which is too short to hold `max_repeats + 1 ≥ 4` further copies. -/
theorem dedup_idempotent (x : List Char) (m : Nat) (hm : 3 ≤ m) :
    dedup_repeated_phrases (dedup_repeated_phrases x m) m =
      dedup_repeated_phrases x m := by
  by_cases hlen : (fields x).length ≤ m
  · have h1 : dedup_repeated_phrases x m = x := by
      simp [dedup_repeated_phrases, hlen]
    rw [h1]
    exact h1
  · cases hcut : findCut (fields x) m with
    | none =>
        have h1 : dedup_repeated_phrases x m = x := by
          simp [dedup_repeated_phrases, hlen, hcut]
        rw [h1]
        exact h1
    | some k =>
        have h1 : dedup_repeated_phrases x m = joinWords ((fields x).take k) := by
          simp [dedup_repeated_phrases, hlen, hcut]
        obtain ⟨s, p, hsn, hp1, hpb, hhit, hk, hmin_s, hmin_p⟩ := findCut_some hcut
        have hp2 : p ≤ ((fields x).length - s) / 2 :=
          le_trans hpb (min_le_right _ _)
        have hk_le : k ≤ (fields x).length := by omega
        have hlen_take : ((fields x).take k).length = k := by
          rw [List.length_take]
          omega
        have hfy : fields (joinWords ((fields x).take k)) = (fields x).take k :=
          fields_joinWords _ fun w hw =>
            fields_chars x w (List.take_subset k (fields x) hw)
        rw [h1]
        by_cases hlen2 : (fields (joinWords ((fields x).take k))).length ≤ m
        · simp [dedup_repeated_phrases, hlen2]
        · have hnone : findCut (fields (joinWords ((fields x).take k))) m = none := by
            rw [hfy]
            apply findCut_none_of
            intro s' hs' p' hp'1 hp'b hhit'
            rw [hlen_take] at hs' hp'b
            have hp'2 : p' ≤ (k - s') / 2 := le_trans hp'b (min_le_right _ _)
            have hs'p' : s' + p' ≤ k := by omega
            have hhit_full : hit (fields x) m s' p' := hit_take hs'p' hhit'
            rcases Nat.lt_trichotomy s' s with hlt | heq | hgt
            · have hb : p' ≤ min 4 (((fields x).length - s') / 2) := by
                have h4 : p' ≤ 4 := le_trans hp'b (min_le_left _ _)
                have hdiv : (k - s') / 2 ≤ (((fields x).length - s') / 2) :=
                  Nat.div_le_div_right (by omega)
                exact le_min h4 (by omega)
              exact hmin_s s' p' hlt hp'1 hb hhit_full
            · subst heq
              have hkp : k - s' = p := by omega
              rw [hkp] at hp'2
              exact hmin_p p' hp'1 (by omega) hhit_full
            · have hroom := hit_bound hhit'
              rw [hlen_take] at hroom
              have hp4 : p ≤ 4 := le_trans hpb (min_le_left _ _)
              have hmul : 4 * 1 ≤ (m + 1) * p' := Nat.mul_le_mul (by omega) hp'1
              omega
          simp [dedup_repeated_phrases, hlen2, hnone]

/-- Witness for C10's amended theorem at `max_repeats = 3` on the spec's
repetition example. -/
theorem dedup_idempotent_w :
    dedup_repeated_phrases
        (dedup_repeated_phrases "the cat the cat the cat the cat the cat".toList 3) 3 =
      dedup_repeated_phrases "the cat the cat the cat the cat the cat".toList 3 :=
  dedup_idempotent "the cat the cat the cat the cat the cat".toList 3 (by decide)

/-- C3 (spec-modelled): the batch route `/ws/transcribe` is accepted, and
each `transcribe` message is answered with exactly one reply. -/
theorem batch_one_reply_per_transcribe :
    route_ws_path ["ws", "transcribe"] = .batchMode ∧
    ∀ (accept : List Char → Bool) (b : Backend) (audio : List ℚ)
      (sample_rate : Nat) (prev : List Char),
      (batch_handler_step accept b (.transcribe audio sample_rate) prev).2.length = 1 := by
  exact ⟨rfl, fun _ _ _ _ _ => rfl⟩

end WhisperStreaming
